import Mathlib

set_option autoImplicit false

/-!
Verification development for the `mk` build tool.

The source is Go; this file gives a shallow embedding of the parts of the
engine that the verified properties speak about: the variable store and
expander (vars.go), the pattern engine (pattern.go), the build database and
staleness algorithm (state.go), the resolver (graph.go), the executor's
single-flight/recipe logic (exec.go) and config application (graph.go).

Modelling conventions:
- Strings are `List Char` (`Str`). The source operates on bytes; all
  claim-relevant text is ASCII, where the two views coincide.
- File-system, subprocess and hashing effects are abstract functions
  supplied in an environment record (`BuildEnv`, and function fields of
  `Vars`): `Option` encodes fallible calls.
- SHA-256 (`hashString` in the source) is an abstract function
  `Str → Str`; the algorithm itself is external to every property proved
  here, which only depend on *what text* is hashed.
- Recursive scanners carry a `Nat` fuel argument so that every definition
  is executable by kernel reduction.  Each processed token consumes one
  unit, so any fuel larger than the input length is enough; the Go code
  diverges only on buildfiles with cyclically recursive user functions,
  which no property here involves.
-/

namespace Mk

/-- Strings as lists of characters. -/
abbrev Str := List Char

/-- Coerce a Lean string literal to the model's string type. -/
def str (s : String) : Str := s.data

/-- ASCII whitespace, as used by Go's strings.Fields / strings.TrimSpace
    on the ASCII subset. -/
def isSpaceCh (c : Char) : Bool :=
  c = ' ' || c = '\t' || c = '\n' || c = '\r' || c = '\x0b' || c = '\x0c'

/-- Go isIdentStart (vars.go): letters and underscore. -/
def isIdentStart (c : Char) : Bool :=
  c.isAlpha || c = '_'

/-- Go isIdentCont (vars.go): letters, digits and underscore. -/
def isIdentCont (c : Char) : Bool :=
  isIdentStart c || c.isDigit

/-- Split at the first occurrence of `c`: returns the part before and the
    part after (the occurrence itself removed), or `none` when absent.
    Models strings.IndexByte-style scanning. -/
def splitFirst (c : Char) : Str → Option (Str × Str)
  | [] => none
  | d :: rest =>
    if d = c then some ([], rest)
    else
      match splitFirst c rest with
      | some (pre, post) => some (d :: pre, post)
      | none => none

/-- strings.Cut with a one-character separator: (before, after, found);
    when the separator is absent Go returns (s, "", false). -/
def cutChar (c : Char) (s : Str) : Str × Str × Bool :=
  match splitFirst c s with
  | some (pre, post) => (pre, post, true)
  | none => (s, [], false)

/-- Scan for the ']' matching an already-consumed '[' (depth starts at 1),
    mirroring findMatchingBracket (vars.go).  Returns the content before
    the matching bracket and the remainder after it. -/
def matchBracket : Nat → Str → Option (Str × Str)
  | _, [] => none
  | depth, c :: rest =>
    if c = '[' then
      match matchBracket (depth + 1) rest with
      | some (inner, post) => some (c :: inner, post)
      | none => none
    else if c = ']' then
      if depth = 1 then some ([], rest)
      else
        match matchBracket (depth - 1) rest with
        | some (inner, post) => some (c :: inner, post)
        | none => none
    else
      match matchBracket depth rest with
      | some (inner, post) => some (c :: inner, post)
      | none => none

/-- strings.TrimSpace on the ASCII subset. -/
def trimSpace (s : Str) : Str :=
  ((s.dropWhile isSpaceCh).reverse.dropWhile isSpaceCh).reverse

/-- Accumulator worker for `fields`. -/
def fieldsAux : Str → Str → List Str
  | acc, [] => if acc = [] then [] else [acc.reverse]
  | acc, c :: rest =>
    if isSpaceCh c then
      if acc = [] then fieldsAux [] rest else acc.reverse :: fieldsAux [] rest
    else fieldsAux (c :: acc) rest

/-- strings.Fields: split around runs of whitespace. -/
def fields (s : Str) : List Str := fieldsAux [] s

/-- strings.Join with a single space. -/
def joinSpace (l : List Str) : Str := List.intercalate (str " ") l

/-- strings.Join with a newline. -/
def joinNl (l : List Str) : Str := List.intercalate (str "\n") l

/-- strings.SplitN with a one-character separator. -/
def splitNChar (c : Char) : Nat → Str → List Str
  | 0, _ => []
  | 1, s => [s]
  | n + 2, s =>
    match splitFirst c s with
    | none => [s]
    | some (pre, post) => pre :: splitNChar c (n + 1) post

/-- Fueled worker for `replaceAll`; each step consumes at least one
    character of the subject, so fuel = length suffices. -/
def replaceAllFuel (pat rep : Str) : Nat → Str → Str
  | _, [] => []
  | 0, s => s
  | fuel + 1, c :: rest =>
    if pat ≠ [] && pat.isPrefixOf (c :: rest) then
      rep ++ replaceAllFuel pat rep fuel ((c :: rest).drop pat.length)
    else c :: replaceAllFuel pat rep fuel rest

/-- strings.ReplaceAll for a non-empty pattern (every use in the source
    has a non-empty pattern; an empty pattern is treated as no-op). -/
def replaceAll (pat rep s : Str) : Str := replaceAllFuel pat rep s.length s

/-- strings.Contains (substring containment). -/
def containsSub (s sub : Str) : Bool :=
  s.tails.any (fun t => sub.isPrefixOf t)

/-- Decimal digit-run value, or `none` if empty / not all digits. -/
def digitsVal : Str → Option Nat
  | [] => none
  | ds =>
    if ds.all Char.isDigit then
      some (ds.foldl (fun n c => n * 10 + (c.toNat - '0'.toNat)) 0)
    else none

/-- strconv.Atoi (overflow behaviour is irrelevant to the properties). -/
def parseIntQ : Str → Option Int
  | [] => none
  | '-' :: ds => (digitsVal ds).map (fun n => -(n : Int))
  | '+' :: ds => (digitsVal ds).map (fun n => (n : Int))
  | ds => (digitsVal ds).map (fun n => (n : Int))

/-- strconv.Itoa for the non-negative counts produced by the source. -/
def natToStr (n : Nat) : Str := (Nat.repr n).data

/-- Byte-wise lexicographic strict order, as used by sort.Strings. -/
def strLt : Str → Str → Bool
  | [], [] => false
  | [], _ :: _ => true
  | _ :: _, [] => false
  | a :: as, b :: bs =>
    if a < b then true
    else if b < a then false
    else strLt as bs

/-- Insert into an ascending list. -/
def insertSorted (x : Str) : List Str → List Str
  | [] => [x]
  | y :: ys => if strLt y x then y :: insertSorted x ys else x :: y :: ys

/-- sort.Strings (ascending; ties are equal strings, so order of equals
    is immaterial). -/
def sortStr (l : List Str) : List Str := l.foldr insertSorted []

/-- Drop adjacent duplicates in a sorted list (the dedup loop of
    funcSort in vars.go). -/
def dedupAdj : List Str → List Str
  | [] => []
  | [x] => [x]
  | x :: y :: rest =>
    if x = y then dedupAdj (y :: rest) else x :: dedupAdj (y :: rest)

/-- Accumulator worker for `splitAllChar`. -/
def splitAllAux (c : Char) : Str → Str → List Str
  | acc, [] => [acc.reverse]
  | acc, d :: rest =>
    if d = c then acc.reverse :: splitAllAux c [] rest
    else splitAllAux c (d :: acc) rest

/-- strings.Split with a one-character separator. -/
def splitAllChar (c : Char) (s : Str) : List Str := splitAllAux c [] s

/-- Join with a one-character separator. -/
def joinChar (c : Char) (l : List Str) : Str := List.intercalate [c] l

/-- Go path/filepath.Clean for slash-separated (unix) paths. -/
def filepathClean (p : Str) : Str :=
  if p = [] then str "."
  else
    let rooted := p.head? = some '/'
    let stack := (splitAllChar '/' p).foldl
      (fun st e =>
        if e = [] || e = str "." then st
        else if e = str ".." then
          match st with
          | [] => if rooted then [] else [str ".."]
          | top :: rest => if top = str ".." then str ".." :: top :: rest else rest
        else e :: st) []
    let body := joinChar '/' stack.reverse
    if rooted then (if body = [] then str "/" else '/' :: body)
    else (if body = [] then str "." else body)

/-- Go path/filepath.Dir: everything up to the final separator, cleaned. -/
def filepathDir (p : Str) : Str :=
  filepathClean ((p.reverse.dropWhile (fun c => c ≠ '/')).reverse)

/-- Go path/filepath.Base. -/
def filepathBase (p : Str) : Str :=
  if p = [] then str "."
  else
    let p1 := (p.reverse.dropWhile (fun c => c = '/')).reverse
    if p1 = [] then str "/"
    else (p1.reverse.takeWhile (fun c => c ≠ '/')).reverse

/-- Go path/filepath.Ext: suffix of the final element from its last dot. -/
def filepathExt (p : Str) : Str :=
  let rev := p.reverse.takeWhile (fun c => c ≠ '/')
  if rev.contains '.' then ((rev.takeWhile (fun c => c ≠ '.')) ++ ['.']).reverse
  else []

/-- Lookup in an association list with Go's zero-value default "". -/
def lookupD (l : List (Str × Str)) (k : Str) : Str := (l.lookup k).getD []

/-- Go %q-style quoting for plain ASCII names. -/
def quoteStr (s : Str) : Str := '"' :: s ++ ['"']

/-! ## Variable store and expander (vars.go)

The store's lazy map is observationally a deferred write to the eager map:
`Get` resolves and memoizes a lazy entry on first read, and every reader
goes through `Get`.  The model therefore carries the eager map only.  The
filesystem glob used by `wildcard` and the shell used by `shell` are
abstract function fields of the store (they are external processes). -/

/-- User-defined function (FuncDef in ast.go). -/
structure FuncDefM where
  name : Str
  params : List Str
  body : Str

/-- Variable store (Vars in vars.go). -/
structure Vars where
  vals : List (Str × Str)
  funcs : List (Str × FuncDefM)
  globF : Str → Option (List Str)
  shellF : Str → Option Str

/-- Vars.Get: map lookup with Go's zero value "" for unbound names. -/
def Vars.get (v : Vars) (name : Str) : Str := (v.vals.lookup name).getD []

/-- Vars.Set: map overwrite (first-match lookup on a prepended entry). -/
def Vars.set (v : Vars) (name val : Str) : Vars :=
  { v with vals := (name, val) :: v.vals }

/-- Vars.Append. -/
def Vars.append (v : Vars) (name val : Str) : Vars :=
  let ex := v.get name
  if ex ≠ [] then v.set name (ex ++ ' ' :: val) else v.set name val

/-- varProperty (vars.go): `.dir` / `.file` path properties of a value. -/
def varProperty (val prop : Str) : Str :=
  if prop = str "dir" then filepathDir val
  else if prop = str "file" then filepathBase val
  else []

/-- patsubstWord (vars.go): single-% pattern substitution on one word. -/
def patsubstWord (pattern replacement word : Str) : Str :=
  if !pattern.contains '%' then
    (if word = pattern then replacement else word)
  else
    let cut := cutChar '%' pattern
    let pre := cut.1
    let suf := cut.2.1
    if pre.isPrefixOf word && suf.isSuffixOf word then
      replaceAll (str "%")
        ((word.drop pre.length).take (word.length - pre.length - suf.length))
        replacement
    else word

/-- patsubstMatch (vars.go): single-% pattern test on one word. -/
def patsubstMatch (pattern word : Str) : Bool :=
  if !pattern.contains '%' then word = pattern
  else
    let cut := cutChar '%' pattern
    cut.1.isPrefixOf word && cut.2.1.isSuffixOf word

/-- funcWildcard (vars.go): filesystem glob; errors yield "". -/
def funcWildcard (exv : Vars → Str → Str) (v : Vars) (args : Str) : Str :=
  match v.globF (exv v args) with
  | none => []
  | some ms => joinSpace ms

/-- funcShell (vars.go): run a shell command, newlines collapsed to spaces. -/
def funcShell (exv : Vars → Str → Str) (v : Vars) (args : Str) : Str :=
  match v.shellF (exv v args) with
  | none => []
  | some out => (trimSpace out).map (fun ch => if ch = '\n' then ' ' else ch)

/-- funcPatsubst (vars.go). -/
def funcPatsubst (exv : Vars → Str → Str) (v : Vars) (args : Str) : Str :=
  match splitNChar ',' 3 args with
  | [p0, p1, p2] =>
    let pattern := trimSpace p0
    let replacement := trimSpace p1
    let text := trimSpace (exv v p2)
    joinSpace ((fields text).map (patsubstWord pattern replacement))
  | _ => []

/-- funcSubst (vars.go). -/
def funcSubst (exv : Vars → Str → Str) (v : Vars) (args : Str) : Str :=
  match splitNChar ',' 3 args with
  | [p0, p1, p2] =>
    replaceAll (trimSpace p0) (trimSpace p1) (trimSpace (exv v p2))
  | _ => []

/-- funcFilter (vars.go). -/
def funcFilter (exv : Vars → Str → Str) (v : Vars) (args : Str) : Str :=
  match splitNChar ',' 2 args with
  | [p0, p1] =>
    let pattern := trimSpace p0
    let text := trimSpace (exv v p1)
    joinSpace ((fields text).filter (fun w => patsubstMatch pattern w))
  | _ => []

/-- funcFilterOut (vars.go). -/
def funcFilterOut (exv : Vars → Str → Str) (v : Vars) (args : Str) : Str :=
  match splitNChar ',' 2 args with
  | [p0, p1] =>
    let pattern := trimSpace p0
    let text := trimSpace (exv v p1)
    joinSpace ((fields text).filter (fun w => !patsubstMatch pattern w))
  | _ => []

/-- funcDir (vars.go): directory part with trailing slash. -/
def funcDir (exv : Vars → Str → Str) (v : Vars) (args : Str) : Str :=
  joinSpace ((fields (exv v args)).map (fun w =>
    let d := filepathDir w
    if d = str "." then str "./" else d ++ ['/']))

/-- funcNotdir (vars.go). -/
def funcNotdir (exv : Vars → Str → Str) (v : Vars) (args : Str) : Str :=
  joinSpace ((fields (exv v args)).map filepathBase)

/-- funcBasename (vars.go): strip the last extension of each word. -/
def funcBasename (exv : Vars → Str → Str) (v : Vars) (args : Str) : Str :=
  joinSpace ((fields (exv v args)).map (fun w =>
    w.take (w.length - (filepathExt w).length)))

/-- funcSuffix (vars.go): keep each word's non-empty extension. -/
def funcSuffix (exv : Vars → Str → Str) (v : Vars) (args : Str) : Str :=
  joinSpace ((fields (exv v args)).filterMap (fun w =>
    let e := filepathExt w
    if e = [] then none else some e))

/-- funcAddprefix (vars.go). -/
def funcAddprefix (exv : Vars → Str → Str) (v : Vars) (args : Str) : Str :=
  match splitNChar ',' 2 args with
  | [p0, p1] =>
    let pre := trimSpace p0
    let text := trimSpace (exv v p1)
    joinSpace ((fields text).map (fun w => pre ++ w))
  | _ => []

/-- funcAddsuffix (vars.go). -/
def funcAddsuffix (exv : Vars → Str → Str) (v : Vars) (args : Str) : Str :=
  match splitNChar ',' 2 args with
  | [p0, p1] =>
    let suf := trimSpace p0
    let text := trimSpace (exv v p1)
    joinSpace ((fields text).map (fun w => w ++ suf))
  | _ => []

/-- funcSort (vars.go): sort and deduplicate. -/
def funcSort (exv : Vars → Str → Str) (v : Vars) (args : Str) : Str :=
  joinSpace (dedupAdj (sortStr (fields (exv v args))))

/-- funcWord (vars.go): 1-indexed word extraction. -/
def funcWord (exv : Vars → Str → Str) (v : Vars) (args : Str) : Str :=
  match splitNChar ',' 2 args with
  | [p0, p1] =>
    match parseIntQ (trimSpace p0) with
    | none => []
    | some n =>
      if n < 1 then []
      else
        let ws := fields (trimSpace (exv v p1))
        if n > (ws.length : Int) then [] else ws.getD (n.toNat - 1) []
  | _ => []

/-- funcWords (vars.go): word count. -/
def funcWords (exv : Vars → Str → Str) (v : Vars) (args : Str) : Str :=
  natToStr (fields (exv v args)).length

/-- funcStrip (vars.go): normalize whitespace. -/
def funcStrip (exv : Vars → Str → Str) (v : Vars) (args : Str) : Str :=
  joinSpace (fields (exv v args))

/-- funcFindstring (vars.go). -/
def funcFindstring (exv : Vars → Str → Str) (v : Vars) (args : Str) : Str :=
  match splitNChar ',' 2 args with
  | [p0, p1] =>
    let find := trimSpace p0
    let text := trimSpace (exv v p1)
    if containsSub text find then find else []
  | _ => []

/-- funcIf (vars.go): empty string is false. -/
def funcIf (exv : Vars → Str → Str) (v : Vars) (args : Str) : Str :=
  match splitNChar ',' 3 args with
  | [p0, p1] =>
    if trimSpace (exv v p0) ≠ [] then trimSpace (exv v p1) else []
  | [p0, p1, p2] =>
    if trimSpace (exv v p0) ≠ [] then trimSpace (exv v p1)
    else trimSpace (exv v p2)
  | _ => []

/-- Bind parameters positionally, missing arguments bound to ""
    (callUserFunc in vars.go). -/
def bindParams : Vars → List Str → List Str → Vars
  | v, [], _ => v
  | v, p :: ps, [] => bindParams (v.set p []) ps []
  | v, p :: ps, w :: ws => bindParams (v.set p w) ps ws

/-- callUserFunc (vars.go): expand arguments, bind words to parameters
    (extra words joined into the last parameter), evaluate the body in the
    child store. -/
def callUserFunc (exv : Vars → Str → Str) (v : Vars) (fn : FuncDefM) (args : Str) : Str :=
  let ws := fields (exv v args)
  let child := bindParams v fn.params ws
  let child :=
    if fn.params ≠ [] ∧ ws.length > fn.params.length then
      child.set ((fn.params.getLast?).getD []) (joinSpace (ws.drop (fn.params.length - 1)))
    else child
  exv child fn.body

/-- Vars.evalFunc (vars.go): dispatch `$[name args]` to a built-in or a
    registered user function; unknown names yield "". -/
def evalFunc (exv : Vars → Str → Str) (v : Vars) (inner : Str) : Str :=
  let cut := cutChar ' ' inner
  let name := cut.1
  let args := trimSpace cut.2.1
  if name = str "wildcard" then funcWildcard exv v args
  else if name = str "shell" then funcShell exv v args
  else if name = str "patsubst" then funcPatsubst exv v args
  else if name = str "subst" then funcSubst exv v args
  else if name = str "filter" then funcFilter exv v args
  else if name = str "filter-out" then funcFilterOut exv v args
  else if name = str "dir" then funcDir exv v args
  else if name = str "notdir" then funcNotdir exv v args
  else if name = str "basename" then funcBasename exv v args
  else if name = str "suffix" then funcSuffix exv v args
  else if name = str "addprefix" then funcAddprefix exv v args
  else if name = str "addsuffix" then funcAddsuffix exv v args
  else if name = str "sort" then funcSort exv v args
  else if name = str "word" then funcWord exv v args
  else if name = str "words" then funcWords exv v args
  else if name = str "strip" then funcStrip exv v args
  else if name = str "findstring" then funcFindstring exv v args
  else if name = str "if" then funcIf exv v args
  else
    match v.funcs.lookup name with
    | some fn => callUserFunc exv v fn args
    | none => []

/-- The `$name` arm of Vars.Expand (vars.go): maximal identifier run,
    then optional `.member` (scoped variable, falling back to a path
    property, with one further property hop) or `:old=new` substitution
    reference.  `exv` is the expander used for the continuation of the
    scan. -/
def expandIdent (exv : Vars → Str → Str) (v : Vars) (s : Str) : Str :=
  let sp := s.span isIdentCont
  let name := sp.1
  let rest3 := sp.2
  let val := v.get name
  match rest3 with
  | '.' :: r4 =>
    let sp2 := r4.span isIdentCont
    let member := sp2.1
    let r5 := sp2.2
    let scopedVal := v.get (name ++ '.' :: member)
    if scopedVal ≠ [] then
      match r5 with
      | '.' :: r6 =>
        let sp3 := r6.span isIdentCont
        varProperty scopedVal sp3.1 ++ exv v sp3.2
      | _ => scopedVal ++ exv v r5
    else varProperty val member ++ exv v r5
  | ':' :: r4 =>
    match splitFirst '=' r4 with
    | none => val ++ exv v (':' :: r4)
    | some (old, afterEq) =>
      match splitFirst ' ' afterEq with
      | none =>
        joinSpace ((fields val).map (patsubstWord ('%' :: old) ('%' :: afterEq)))
      | some (repl, tl) =>
        joinSpace ((fields val).map (patsubstWord ('%' :: old) ('%' :: repl)))
          ++ exv v (' ' :: tl)
  | _ => val ++ exv v rest3

/-- Vars.Expand (vars.go): one left-to-right pass replacing dollar-sigil
    forms.  Fuel is consumed once per processed token; Go's recursion
    into function arguments and user-function bodies is reflected by
    passing the expander one fuel step down. -/
def expand : Nat → Vars → Str → Str
  | _, _, [] => []
  | 0, _, s => s
  | fuel + 1, v, c :: rest =>
    if c ≠ '$' then c :: expand fuel v rest
    else
      match rest with
      | [] => ['$']
      | d :: rest2 =>
        if d = '$' then '$' :: expand fuel v rest2
        else if d = '\x7b' then
          match splitFirst '\x7d' rest2 with
          | none => '$' :: '\x7b' :: expand fuel v rest2
          | some (name, post) => v.get name ++ expand fuel v post
        else if d = '[' then
          match matchBracket 1 rest2 with
          | none => '$' :: '[' :: expand fuel v rest2
          | some (inner, post) => evalFunc (expand fuel) v inner ++ expand fuel v post
        else if isIdentStart d then
          expandIdent (expand fuel) v (d :: rest2)
        else '$' :: expand fuel v (d :: rest2)

/-! ## Pattern engine (pattern.go) -/

/-- strings.HasPrefix combined with removal of the matched part. -/
def dropPre : Str → Str → Option Str
  | [], s => some s
  | _ :: _, [] => none
  | c :: cs, d :: ds => if c = d then dropPre cs ds else none

/-- A named capture with its optional constraint.  The glob and regex
    engines behind CaptureConstraint.Matches (pattern.go) are external
    libraries; a constraint is modelled as an abstract boolean predicate
    on the candidate string. -/
structure PatCapture where
  name : Str
  con : Option (Str → Bool)

/-- Pattern (pattern.go): literal parts interleaved with named captures.
    ParsePattern always yields parts.length = caps.length + 1 for a
    pattern with captures. -/
structure Pattern where
  parts : List Str
  caps : List PatCapture
  raw : Str

/-- Capture bindings, as Go's map[string]string. -/
abbrev CapMap := List (Str × Str)

/-- Bind a capture value: a fresh name is added, an existing binding must
    agree (the agreement checks inside Pattern.match, pattern.go). -/
def bindCap (m : CapMap) (name val : Str) : Option CapMap :=
  match m.lookup name with
  | some v0 => if v0 = val then some m else none
  | none => some ((name, val) :: m)

/-- constraintMatches (pattern.go): unconstrained captures accept all. -/
def conOK (c : PatCapture) (cand : Str) : Bool :=
  match c.con with
  | none => true
  | some f => f cand

/-- Pattern.match (pattern.go): recursive descent over alternating literal
    parts and captures.  A last capture followed only by an empty literal
    takes the whole remainder; otherwise split points are tried in
    ascending order with backtracking.  Capture candidates never contain
    '/'.  Fuel is one unit per consumed part; the ill-formed shape with a
    capture but no following part (unreachable for parsed patterns, where
    the Go code would index out of range) is a failure. -/
def pmatch : Nat → List Str → List PatCapture → CapMap → Str → Option CapMap
  | 0, _, _, _, _ => none
  | _ + 1, [], _, _, _ => none
  | fuel + 1, p :: ps, caps, m, s =>
    match dropPre p s with
    | none => none
    | some t =>
      match caps, ps with
      | [], _ => if t = [] then some m else none
      | _ :: _, [] => none
      | c :: cs, q :: qs =>
        if qs.isEmpty && q.isEmpty && cs.isEmpty then
          if t.contains '/' then none
          else if !conOK c t then none
          else bindCap m c.name t
        else
          (List.range (t.length + 1)).findSome? (fun i =>
            let cand := t.take i
            if cand.contains '/' then none
            else if !conOK c cand then none
            else
              match bindCap m c.name cand with
              | none => none
              | some m2 => pmatch fuel (q :: qs) cs m2 (t.drop i))

/-- Pattern.Match (pattern.go): a pattern without captures matches only
    its own raw text. -/
def Pattern.Match (p : Pattern) (s : Str) : Option CapMap :=
  if p.caps.isEmpty then (if s = p.raw then some [] else none)
  else pmatch (p.parts.length + 1) p.parts p.caps [] s

/-- Worker for Pattern.Expand: write each literal part followed by the
    bound value of the capture after it (missing bindings are ""). -/
def pexpand : List Str → List PatCapture → CapMap → Str
  | [], _, _ => []
  | p :: ps, [], m => p ++ pexpand ps [] m
  | p :: ps, c :: cs, m => p ++ lookupD m c.name ++ pexpand ps cs m

/-- Pattern.Expand (pattern.go). -/
def Pattern.Expand (p : Pattern) (m : CapMap) : Str :=
  if p.caps.isEmpty then p.raw else pexpand p.parts p.caps m

/-! ## Build database and staleness (state.go) -/

/-- TargetState (state.go). -/
structure TargetState where
  recipeHash : Str
  inputHashes : List (Str × Str)
  outputHash : Str
  fingerprintHash : Str
  prereqs : List Str
deriving DecidableEq

/-- Abstract effect environment of the build database and executor: the
    recorded state map, file existence (os.Stat / os.IsNotExist), SHA-256
    of a string, the fingerprint command runner (returning the hash of
    its stdout, or `none` when the command fails, as runFingerprint in
    state.go), and the hash cache (`none` when the file cannot be statted
    or read). -/
structure BuildEnv where
  stateTargets : Str → Option TargetState
  fileExists : Str → Bool
  hashString : Str → Str
  runFp : Str → Option Str
  cacheHash : Str → Option Str

/-- Staleness of one target of the group (the loop body of
    BuildState.IsStale, state.go). -/
def staleOne (env : BuildEnv) (prereqs : List Str) (recipeText fingerprint : Str) (t : Str) : Bool :=
  match env.stateTargets t with
  | none => true
  | some ts =>
    if ts.recipeHash ≠ env.hashString recipeText then true
    else if fingerprint ≠ [] then
      match env.runFp fingerprint with
      | none => true
      | some fph => ts.fingerprintHash ≠ fph
    else
      if !env.fileExists t then true
      else if sortStr prereqs ≠ sortStr ts.prereqs then true
      else
        prereqs.any (fun p =>
          match env.cacheHash p with
          | none => true
          | some h => lookupD ts.inputHashes p ≠ h)

/-- BuildState.IsStale (state.go): the group is stale when any of its
    targets is. -/
def IsStale (env : BuildEnv) (targets prereqs : List Str) (recipeText fingerprint : Str) : Bool :=
  targets.any (staleOne env prereqs recipeText fingerprint)

/-- One recorded TargetState, as built by BuildState.Record (state.go):
    a hash failure skips that input-hash entry; fingerprint mode records
    the fingerprint hash, file mode the output hash. -/
def recordTargetState (env : BuildEnv) (target : Str) (prereqs : List Str) (recipeText fingerprint : Str) : TargetState :=
  { recipeHash := env.hashString recipeText
    inputHashes := prereqs.filterMap (fun p => (env.cacheHash p).map (fun h => (p, h)))
    outputHash := if fingerprint = [] then (env.cacheHash target).getD [] else []
    fingerprintHash := if fingerprint ≠ [] then (env.runFp fingerprint).getD [] else []
    prereqs := prereqs }

/-- BuildState.Record (state.go): the map entries written for a
    successful build, one per target of the group. -/
def Record (env : BuildEnv) (targets prereqs : List Str) (recipeText fingerprint : Str) : List (Str × TargetState) :=
  targets.map (fun t => (t, recordTargetState env t prereqs recipeText fingerprint))

/-! ## Rules and the resolver (graph.go) -/

/-- resolvedRule (graph.go). -/
structure RRule where
  target : Str
  targets : List Str
  prereqs : List Str
  orderOnly : List Str
  recipe : List Str
  isTask : Bool
  keep : Bool
  fingerprint : Str
  stem : Str
deriving DecidableEq

/-- patternRule (graph.go). -/
structure PatternRule where
  targetPats : List Pattern
  prereqPats : List Pattern
  orderOnlyPats : List Pattern
  recipe : List Str
  keep : Bool
  fingerprint : Str

/-- The part of Graph that Resolve consults: explicit rules and pattern
    rules, in declaration order. -/
structure Graph where
  rules : List RRule
  patterns : List PatternRule

/-- Substitute capture values into a recipe line or fingerprint command
    (the strings.ReplaceAll loop over the capture map in Graph.Resolve,
    graph.go; Go's map iteration order is unspecified, the model uses
    binding order, on which no proved property depends). -/
def substCaps (m : CapMap) (line : Str) : Str :=
  m.foldl (fun l kv => replaceAll ('\x7b' :: kv.1 ++ ['\x7d']) kv.2 l) line

/-- First target pattern of a pattern rule that matches, with its capture
    map (the inner loop of Graph.Resolve with its break). -/
def firstTpMatch (pr : PatternRule) (target : Str) : Option (Pattern × CapMap) :=
  pr.targetPats.findSome? (fun tp => (tp.Match target).map (fun m => (tp, m)))

/-- Attach the recipe-bearing matching rule's recipe, keep flag,
    fingerprint and stem to the merged rule (Graph.Resolve, graph.go). -/
def attachRecipe (pr : PatternRule) (tp : Pattern) (m : CapMap) (r : RRule) : RRule :=
  { r with
    recipe := pr.recipe.map (substCaps m)
    keep := pr.keep
    fingerprint := substCaps m pr.fingerprint
    stem :=
      match tp.caps with
      | c :: _ => lookupD m c.name
      | [] => [] }

/-- The pattern-rule accumulation loop of Graph.Resolve (graph.go):
    matching rules' prerequisites are merged in declaration order; a
    second matching rule with a recipe is an ambiguity error. -/
def resolveLoop (target : Str) : List PatternRule → Option RRule → Nat → Except Str (Option RRule)
  | [], merged, _ => .ok merged
  | pr :: rest, merged, rc =>
    match firstTpMatch pr target with
    | none => resolveLoop target rest merged rc
    | some (tp, m) =>
      let prereqs := pr.prereqPats.map (fun pp => pp.Expand m)
      let oo := pr.orderOnlyPats.map (fun pp => pp.Expand m)
      let merged1 : RRule :=
        match merged with
        | none =>
          let targets := pr.targetPats.map (fun tp2 => tp2.Expand m)
          { target := targets.headD [], targets := targets, prereqs := prereqs,
            orderOnly := oo, recipe := [], isTask := false, keep := false,
            fingerprint := [], stem := [] }
        | some mg =>
          { mg with prereqs := mg.prereqs ++ prereqs, orderOnly := mg.orderOnly ++ oo }
      if pr.recipe ≠ [] then
        if rc + 1 > 1 then
          .error (str "ambiguous pattern rules for " ++ quoteStr target ++
            str ": multiple rules have recipes")
        else resolveLoop target rest (some (attachRecipe pr tp m merged1)) (rc + 1)
      else resolveLoop target rest (some merged1) rc

/-- Graph.Resolve (graph.go): explicit rules first, then merged pattern
    rules, then an on-disk leaf, otherwise an error. -/
def Graph.Resolve (env : BuildEnv) (g : Graph) (target : Str) : Except Str RRule :=
  match g.rules.find? (fun r => r.targets.contains target) with
  | some r => .ok r
  | none =>
    match resolveLoop target g.patterns none 0 with
    | .error e => .error e
    | .ok (some mg) => .ok mg
    | .ok none =>
      if env.fileExists target then
        .ok { target := target, targets := [target], prereqs := [], orderOnly := [],
              recipe := [], isTask := false, keep := false, fingerprint := [], stem := [] }
      else .error (str "no rule to build " ++ quoteStr target)

/-! ## Executor (exec.go) -/

/-- The changed-prerequisite computation inside Executor.expandRecipe
    (exec.go): with no recorded state every normal prerequisite counts as
    changed; otherwise those whose hash fails or differs. -/
def changedPrereqs (env : BuildEnv) (target : Str) (prereqs : List Str) : List Str :=
  match env.stateTargets target with
  | none => prereqs
  | some ts =>
    prereqs.filter (fun p =>
      match env.cacheHash p with
      | none => true
      | some h => lookupD ts.inputHashes p ≠ h)

/-- The child store with automatic variables bound, as set up by
    Executor.expandRecipe (exec.go): target, input (first normal
    prerequisite, when any), inputs, stem (when non-empty), changed. -/
def autoVars (env : BuildEnv) (v : Vars) (rule : RRule) : Vars :=
  let v1 := v.set (str "target") rule.target
  let v2 :=
    match rule.prereqs with
    | [] => v1
    | p :: _ => v1.set (str "input") p
  let v3 := v2.set (str "inputs") (joinSpace rule.prereqs)
  let v4 := if rule.stem ≠ [] then v3.set (str "stem") rule.stem else v3
  v4.set (str "changed") (joinSpace (changedPrereqs env rule.target rule.prereqs))

/-- Leading '@' and '-' prefix stripping of a recipe line, reporting
    whether a '-' was among the stripped prefixes (Executor.expandRecipe,
    exec.go). -/
def stripAtDash : Str → Str × Bool
  | [] => ([], false)
  | c :: rest =>
    if c = '@' then stripAtDash rest
    else if c = '-' then ((stripAtDash rest).1, true)
    else (c :: rest, false)

/-- Executor.expandRecipe (exec.go): strip '@'/'-' prefixes, expand each
    line in the auto-variable store, append " || true" to lines whose
    prefix contained '-', and join with newlines. -/
def expandRecipe (env : BuildEnv) (v : Vars) (fuel : Nat) (rule : RRule) : Str :=
  let vars := autoVars env v rule
  joinNl (rule.recipe.map (fun line =>
    let sb := stripAtDash line
    let e := expand fuel vars sb.1
    if sb.2 then e ++ str " || true" else e))

/-- Executor.expandFingerprint (exec.go). -/
def expandFingerprint (v : Vars) (fuel : Nat) (rule : RRule) : Str :=
  if rule.fingerprint = [] then []
  else
    let v1 := v.set (str "target") rule.target
    let v2 :=
      match rule.prereqs with
      | [] => v1
      | p :: _ => v1.set (str "input") p
    let v3 := v2.set (str "inputs") (joinSpace rule.prereqs)
    let v4 := if rule.stem ≠ [] then v3.set (str "stem") rule.stem else v3
    expand fuel v4 rule.fingerprint

/-- The staleness consultation of Executor.doBuild (exec.go): the recipe
    runs iff the rule is a task, force is set, or the build database
    reports the group stale — consulted with the normal prerequisites. -/
def doBuildRuns (env : BuildEnv) (v : Vars) (fuel : Nat) (force : Bool) (rule : RRule) : Bool :=
  rule.isTask || force ||
    IsStale env rule.targets rule.prereqs (expandRecipe env v fuel rule)
      (expandFingerprint v fuel rule)

/-- Error message of a failed recipe (Executor.executeRecipe, exec.go). -/
def recipeFailMsg (rule : RRule) (cause : Str) : Str :=
  str "recipe for " ++ quoteStr rule.target ++ str " failed: " ++ cause

/-- Observable outcome of Executor.executeRecipe (exec.go): the target
    files removed, the returned error, and whether state was recorded. -/
structure RecipeOutcome where
  removed : List Str
  result : Option Str
  recorded : Bool
deriving DecidableEq

/-- Executor.executeRecipe (exec.go) after the recipe process finished
    with `runErr` (output buffering and parent-directory creation are
    I/O with no bearing on the modelled outcome). -/
def executeRecipeOutcome (rule : RRule) (runErr : Option Str) (dryRun : Bool) : RecipeOutcome :=
  if dryRun then { removed := [], result := none, recorded := false }
  else
    match runErr with
    | none => { removed := [], result := none, recorded := !rule.isTask }
    | some cause =>
      if !rule.isTask && !rule.keep then
        { removed := rule.targets, result := some (recipeFailMsg rule cause), recorded := false }
      else
        { removed := [], result := some (recipeFailMsg rule cause), recorded := false }

/-- Single-flight state of Executor.Build (exec.go): the key set of the
    `building` map and the number of doBuild launches. -/
structure ExecState where
  building : List Str
  doBuildCount : Nat
deriving DecidableEq

/-- One Executor.Build request (exec.go): a target already registered
    returns the shared result; otherwise the resolved rule's outputs are
    all registered under the executor lock — before execution starts —
    and one doBuild is launched. -/
def buildStep (resolve : Str → List Str) (st : ExecState) (target : Str) : ExecState :=
  if st.building.contains target then st
  else { building := st.building ++ resolve target, doBuildCount := st.doBuildCount + 1 }

/-- A sequence of Build requests.  Concurrent calls serialize at the
    executor lock into such a sequence. -/
def buildRequests (resolve : Str → List Str) (st : ExecState) (reqs : List Str) : ExecState :=
  reqs.foldl (buildStep resolve) st

/-! ## Config application (graph.go) -/

/-- Assignment operator (ast.go). -/
inductive AssignOpM
  | set
  | append
  | condSet

/-- A config variable override (VarAssign in ast.go, as consumed by
    Graph.applyConfigs). -/
structure VarAssignM where
  name : Str
  op : AssignOpM
  value : Str

/-- ConfigDef (ast.go). -/
structure ConfigDefM where
  name : Str
  excludes : List Str
  requires : List Str
  vars : List VarAssignM

/-- Apply one config variable override (the switch in Graph.applyConfigs,
    graph.go); the value is expanded in the current store. -/
def applyVarAssign (fuel : Nat) (v : Vars) (va : VarAssignM) : Vars :=
  let value := expand fuel v va.value
  match va.op with
  | .set => v.set va.name value
  | .append => v.append va.name value
  | .condSet => if v.get va.name = [] then v.set va.name value else v

/-- Config variable overrides applied in command-line order
    (Graph.applyConfigs, graph.go). -/
def applyConfigOverrides (fuel : Nat) (configs : List (Str × ConfigDefM)) (active : List Str) (v : Vars) : Vars :=
  active.foldl (fun w name =>
    match configs.lookup name with
    | none => w
    | some cfg => cfg.vars.foldl (applyVarAssign fuel) w) v

/-- The builddir derivation step of Graph.applyConfigs (graph.go). -/
def suffixBuilddir (active : List Str) (v : Vars) : Vars :=
  let base := v.get (str "builddir")
  if base ≠ [] then v.set (str "builddir") (base ++ '-' :: joinChar '-' active)
  else v

/-- Graph.applyConfigs (graph.go): validate that every active config is
    defined, check mutual exclusion, apply overrides in order, then
    derive builddir. -/
def applyConfigs (fuel : Nat) (configs : List (Str × ConfigDefM)) (active : List Str) (v : Vars) : Except Str Vars :=
  if active.any (fun n => (configs.lookup n).isNone) then
    .error (str "unknown config")
  else if active.any (fun n =>
      match configs.lookup n with
      | some cfg => cfg.excludes.any (fun e => active.contains e)
      | none => false) then
    .error (str "config exclusion violated")
  else .ok (suffixBuilddir active (applyConfigOverrides fuel configs active v))

/-! ## Basic lemmas -/

theorem lookup_cons {β : Type} (k k' : Str) (v : β) (l : List (Str × β)) :
    ((k, v) :: l).lookup k' = if k' = k then some v else l.lookup k' := by
  by_cases h : k' = k
  · simp [List.lookup, h]
  · have hb : (k' == k) = false := beq_eq_false_iff_ne.mpr h
    simp [List.lookup, hb, h]

theorem get_set (v : Vars) (n n' val : Str) :
    (v.set n val).get n' = if n' = n then val else v.get n' := by
  by_cases h : n' = n <;> simp [Vars.set, Vars.get, lookup_cons, h]

theorem contains_eq_mem (l : List Str) (a : Str) :
    l.contains a = true ↔ a ∈ l :=
  List.elem_iff

/-! ## C1: the staleness algorithm -/

/-- The staleness condition for one target of the group, exactly as the
    spec states it (§4.F): no record; recipe hash changed; in fingerprint
    mode a failing fingerprint command or a diverging fingerprint hash;
    in file mode a missing target file, a changed (sorted) prerequisite
    set, or a prerequisite that fails to hash or hashes differently from
    the record. -/
def StaleSpecOne (env : BuildEnv) (prereqs : List Str) (recipeText fingerprint : Str) (t : Str) : Prop :=
  env.stateTargets t = none ∨
  ∃ ts, env.stateTargets t = some ts ∧
    (env.hashString recipeText ≠ ts.recipeHash ∨
     (fingerprint ≠ [] ∧
       (env.runFp fingerprint = none ∨
        ∃ h, env.runFp fingerprint = some h ∧ h ≠ ts.fingerprintHash)) ∨
     (fingerprint = [] ∧
       (env.fileExists t = false ∨
        sortStr prereqs ≠ sortStr ts.prereqs ∨
        ∃ p ∈ prereqs, env.cacheHash p = none ∨
          ∃ h, env.cacheHash p = some h ∧ h ≠ lookupD ts.inputHashes p)))

theorem staleOne_iff_spec (env : BuildEnv) (prereqs : List Str) (R F t : Str) :
    staleOne env prereqs R F t = true ↔ StaleSpecOne env prereqs R F t := by
  unfold staleOne StaleSpecOne
  cases h : env.stateTargets t with
  | none => simp
  | some ts =>
    constructor
    · intro hl
      dsimp only at hl
      refine Or.inr ⟨ts, rfl, ?_⟩
      by_cases hrec : ts.recipeHash = env.hashString R
      case neg => exact Or.inl (fun e => hrec e.symm)
      rw [if_neg (by simpa using hrec)] at hl
      cases F with
      | nil =>
        rw [if_neg (by simp)] at hl
        right; right
        refine ⟨rfl, ?_⟩
        by_cases hex : env.fileExists t
        case neg => exact Or.inl (by simpa using hex)
        rw [if_neg (by simpa using hex)] at hl
        by_cases hsort : sortStr prereqs = sortStr ts.prereqs
        case neg => exact Or.inr (Or.inl hsort)
        rw [if_neg (by simpa using hsort)] at hl
        rw [List.any_eq_true] at hl
        obtain ⟨p, hp, hcond⟩ := hl
        refine Or.inr (Or.inr ⟨p, hp, ?_⟩)
        cases hc : env.cacheHash p with
        | none => exact Or.inl rfl
        | some hv =>
          rw [hc] at hcond
          simp only [decide_eq_true_eq] at hcond
          exact Or.inr ⟨hv, rfl, fun e => hcond (by rw [e])⟩
      | cons c cs =>
        rw [if_pos (by simp)] at hl
        right; left
        refine ⟨by simp, ?_⟩
        cases hfp : env.runFp (c :: cs) with
        | none => exact Or.inl rfl
        | some fv =>
          rw [hfp] at hl
          simp only [decide_eq_true_eq] at hl
          exact Or.inr ⟨fv, rfl, fun e => hl (by rw [e])⟩
    · intro hr
      rcases hr with hnone | ⟨ts', hts', body⟩
      · exact absurd hnone (by simp)
      obtain rfl : ts = ts' := by injection hts'
      dsimp only
      rcases body with hrec | ⟨hF, hfp⟩ | ⟨hF, hfile⟩
      · rw [if_pos (by simpa using fun e => hrec e.symm)]
      · by_cases hrec : ts.recipeHash = env.hashString R
        case neg => rw [if_pos (by simpa using hrec)]
        rw [if_neg (by simpa using hrec), if_pos (by simpa using hF)]
        rcases hfp with hnone | ⟨hv, heq, hne⟩
        · rw [hnone]
        · rw [heq]
          simpa using fun e => hne (by rw [e])
      · subst hF
        by_cases hrec : ts.recipeHash = env.hashString R
        case neg => rw [if_pos (by simpa using hrec)]
        rw [if_neg (by simpa using hrec), if_neg (by simp)]
        by_cases hex : env.fileExists t
        case neg => rw [if_pos (by simpa using hex)]
        rw [if_neg (by simpa using hex)]
        by_cases hsort : sortStr prereqs = sortStr ts.prereqs
        case neg => rw [if_pos (by simpa using hsort)]
        rw [if_neg (by simpa using hsort)]
        rcases hfile with hex2 | hsort2 | ⟨p, hp, hcond⟩
        · exact absurd hex2 (by simpa using hex)
        · exact absurd hsort hsort2
        · rw [List.any_eq_true]
          refine ⟨p, hp, ?_⟩
          rcases hcond with hnone | ⟨hv, heq, hne⟩
          · rw [hnone]
          · rw [heq]
            simpa using fun e => hne (by rw [e])

/-- C1: BuildState.IsStale(T, P, R, F) returns true iff for some target
    of the group one of the spec's conditions holds: (1) no TargetState
    is recorded; (2) the SHA-256 of R differs from the recorded recipe
    hash; (3) F is non-empty and running F fails or the hash of its
    stdout differs from the recorded fingerprint hash; (4) F is empty
    and the target file does not exist, or the sorted list P differs
    from the sorted recorded prerequisite list, or some p in P fails to
    hash or its hash differs from the recorded input hash.  Otherwise it
    returns false. -/
theorem isStale_iff_spec_C1 (env : BuildEnv) (targets prereqs : List Str) (R F : Str) :
    IsStale env targets prereqs R F = true ↔
      ∃ t ∈ targets, StaleSpecOne env prereqs R F t := by
  unfold IsStale
  rw [List.any_eq_true]
  exact exists_congr fun t => and_congr_right fun _ => staleOne_iff_spec env prereqs R F t

/-! ## C2: single-flight deduplication of multi-output rules -/

theorem buildRequests_saturated (resolve : Str → List Str) (group : List Str)
    (st : ExecState) (hsat : ∀ t ∈ group, t ∈ st.building) (reqs : List Str)
    (hreqs : ∀ t ∈ reqs, t ∈ group) :
    buildRequests resolve st reqs = st := by
  induction reqs with
  | nil => rfl
  | cons r rest ih =>
    have hr : r ∈ st.building := hsat r (hreqs r (List.mem_cons_self r rest))
    have : buildStep resolve st r = st := by
      unfold buildStep
      rw [if_pos ((contains_eq_mem _ _).mpr hr)]
    unfold buildRequests at ih ⊢
    rw [List.foldl_cons, this]
    exact ih (fun t ht => hreqs t (List.mem_cons_of_mem r ht))

/-- C2: for a multi-output rule with output group G (every output
    resolving to G), any non-empty sequence of Build requests drawn from
    G — concurrent calls serialize at the executor lock into such a
    sequence — launches doBuild exactly once, and the first request
    registers the shared build result under every output name, so every
    later request finds its target registered and returns the shared
    result without running the recipe again. -/
theorem single_flight_once_C2 (resolve : Str → List Str) (group reqs : List Str)
    (hres : ∀ t ∈ group, resolve t = group)
    (hreqs : ∀ t ∈ reqs, t ∈ group)
    (hne : reqs ≠ []) :
    (buildRequests resolve ⟨[], 0⟩ reqs).doBuildCount = 1 ∧
    ∀ t ∈ group, t ∈ (buildRequests resolve ⟨[], 0⟩ reqs).building := by
  cases reqs with
  | nil => exact absurd rfl hne
  | cons r rest =>
    have hrg : r ∈ group := hreqs r (List.mem_cons_self r rest)
    have hstep : buildStep resolve ⟨[], 0⟩ r = ⟨group, 1⟩ := by
      unfold buildStep
      rw [if_neg (by simp), hres r hrg]
      simp
    have hsat : ∀ t ∈ group, t ∈ (ExecState.mk group 1).building := fun t ht => ht
    have hrest : buildRequests resolve ⟨group, 1⟩ rest = ⟨group, 1⟩ :=
      buildRequests_saturated resolve group ⟨group, 1⟩ hsat rest
        (fun t ht => hreqs t (List.mem_cons_of_mem r ht))
    have : buildRequests resolve ⟨[], 0⟩ (r :: rest) = ⟨group, 1⟩ := by
      unfold buildRequests
      rw [List.foldl_cons, hstep]
      exact hrest
    rw [this]
    exact ⟨rfl, fun t ht => ht⟩

theorem single_flight_once_C2_witness :
    (buildRequests (fun _ => [str "liba.a", str "liba.h"]) ⟨[], 0⟩
      [str "liba.h", str "liba.a", str "liba.h"]).doBuildCount = 1 ∧
    str "liba.a" ∈ (buildRequests (fun _ => [str "liba.a", str "liba.h"]) ⟨[], 0⟩
      [str "liba.h", str "liba.a", str "liba.h"]).building := by
  have h := single_flight_once_C2 (fun _ => [str "liba.a", str "liba.h"])
    [str "liba.a", str "liba.h"] [str "liba.h", str "liba.a", str "liba.h"]
    (by decide) (by decide) (by decide)
  exact ⟨h.1, h.2 (str "liba.a") (by decide)⟩

/-! ## C8: recipe failure handling -/

theorem containsSub_append (x sub y : Str) :
    containsSub (x ++ (sub ++ y)) sub = true := by
  unfold containsSub
  rw [List.any_eq_true]
  refine ⟨sub ++ y, ?_, ?_⟩
  · exact (List.mem_tails _ _).mpr (List.suffix_append x (sub ++ y))
  · exact (List.isPrefixOf_iff_prefix).mpr (List.prefix_append sub y)

/-- C8: when a recipe exits with non-zero status (a run error), a rule
    that is neither a task nor marked [keep] has every target file of its
    group deleted and an error mentioning the primary target and the
    underlying cause returned; a task or [keep] rule has no file deleted
    while the same error is still returned. -/
theorem recipe_failure_cleanup_C8 (rule : RRule) (cause : Str) :
    ((rule.isTask = false ∧ rule.keep = false) →
      (executeRecipeOutcome rule (some cause) false).removed = rule.targets ∧
      ∃ e, (executeRecipeOutcome rule (some cause) false).result = some e ∧
        containsSub e rule.target = true ∧ containsSub e cause = true) ∧
    ((rule.isTask = true ∨ rule.keep = true) →
      (executeRecipeOutcome rule (some cause) false).removed = [] ∧
      ∃ e, (executeRecipeOutcome rule (some cause) false).result = some e ∧
        containsSub e rule.target = true ∧ containsSub e cause = true) := by
  have hmsg : containsSub (recipeFailMsg rule cause) rule.target = true ∧
      containsSub (recipeFailMsg rule cause) cause = true := by
    constructor
    · have : recipeFailMsg rule cause =
          (str "recipe for " ++ ['"']) ++ (rule.target ++ (['"'] ++ str " failed: " ++ cause)) := by
        unfold recipeFailMsg quoteStr
        simp
      rw [this]
      exact containsSub_append _ _ _
    · have : recipeFailMsg rule cause =
          (str "recipe for " ++ quoteStr rule.target ++ str " failed: ") ++ (cause ++ []) := by
        unfold recipeFailMsg
        simp
      rw [this]
      exact containsSub_append _ _ _
  constructor
  · rintro ⟨ht, hk⟩
    unfold executeRecipeOutcome
    rw [if_neg (by simp)]
    simp only [ht, hk]
    exact ⟨rfl, recipeFailMsg rule cause, rfl, hmsg⟩
  · intro h
    unfold executeRecipeOutcome
    rw [if_neg (by simp)]
    have : (!rule.isTask && !rule.keep) = false := by
      rcases h with h | h <;> simp [h]
    simp only [this]
    exact ⟨rfl, recipeFailMsg rule cause, rfl, hmsg⟩

theorem recipe_failure_cleanup_C8_witness :
    (executeRecipeOutcome ⟨str "out.txt", [str "out.txt", str "out2.txt"], [], [], [str "cc"],
        false, false, [], []⟩ (some (str "exit status 2")) false).removed =
      [str "out.txt", str "out2.txt"] ∧
    (executeRecipeOutcome ⟨str "out.txt", [str "out.txt", str "out2.txt"], [], [], [str "cc"],
        false, true, [], []⟩ (some (str "exit status 2")) false).removed = [] := by
  refine ⟨((recipe_failure_cleanup_C8 ⟨str "out.txt", [str "out.txt", str "out2.txt"], [], [],
      [str "cc"], false, false, [], []⟩ (str "exit status 2")).1 (by decide)).1, ?_⟩
  exact ((recipe_failure_cleanup_C8 ⟨str "out.txt", [str "out.txt", str "out2.txt"], [], [],
      [str "cc"], false, true, [], []⟩ (str "exit status 2")).2 (by decide)).1

/-! ## C9: config composition -/

def cfgsC9 : List (Str × ConfigDefM) :=
  [(str "debug", ⟨str "debug", [], [], [⟨str "cxxflags", .append, str "-O0"⟩]⟩),
   (str "asan", ⟨str "asan", [], [], [⟨str "cxxflags", .append, str "-fsanitize=address"⟩]⟩)]

def varsC9 : Vars :=
  ⟨[(str "cxxflags", str "-Wall"), (str "builddir", str "build")], [],
   fun _ => none, fun _ => none⟩

/-- C9: applying the active config list [debug, asan] to a store with
    cxxflags = "-Wall" and builddir = "build", where config debug appends
    "-O0" and config asan appends "-fsanitize=address", yields cxxflags =
    "-Wall -O0 -fsanitize=address" (overrides in command-line order) and
    builddir = "build-debug-asan"; and in general, whenever builddir is
    set, config application replaces it with its value suffixed by "-"
    followed by the active config names joined by "-". -/
theorem config_composition_C9 :
    ((applyConfigs 100 cfgsC9 [str "debug", str "asan"] varsC9).toOption.map
      (fun v' => (v'.get (str "cxxflags"), v'.get (str "builddir"))) =
      some (str "-Wall -O0 -fsanitize=address", str "build-debug-asan")) ∧
    (∀ (active : List Str) (w : Vars), w.get (str "builddir") ≠ [] →
      (suffixBuilddir active w).get (str "builddir") =
        w.get (str "builddir") ++ '-' :: joinChar '-' active) := by
  constructor
  · decide
  · intro active w hb
    simp only [suffixBuilddir]
    rw [if_pos hb, get_set, if_pos rfl]

theorem config_composition_C9_witness :
    (suffixBuilddir [str "debug"]
      (Vars.mk [(str "builddir", str "build")] [] (fun _ => none) (fun _ => none))).get
        (str "builddir") = str "build-debug" := by
  have h := config_composition_C9.2 [str "debug"]
    ⟨[(str "builddir", str "build")], [], fun _ => none, fun _ => none⟩ (by decide)
  rw [h]
  decide

/-! ## C6: order-only prerequisites -/

theorem autoVars_get_inputs (env : BuildEnv) (v : Vars) (rule : RRule) :
    (autoVars env v rule).get (str "inputs") = joinSpace rule.prereqs := by
  simp only [autoVars]
  rw [get_set, if_neg (by decide)]
  by_cases hstem : rule.stem = []
  · rw [if_neg (fun hh => hh hstem), get_set, if_pos rfl]
  · rw [if_pos hstem, get_set, if_neg (by decide), get_set, if_pos rfl]

theorem autoVars_get_changed (env : BuildEnv) (v : Vars) (rule : RRule) :
    (autoVars env v rule).get (str "changed") =
      joinSpace (changedPrereqs env rule.target rule.prereqs) := by
  simp only [autoVars]
  rw [get_set, if_pos rfl]

theorem autoVars_get_input (env : BuildEnv) (v : Vars) (rule : RRule) (p : Str)
    (ps : List Str) (hp : rule.prereqs = p :: ps) :
    (autoVars env v rule).get (str "input") = p := by
  simp only [autoVars, hp]
  rw [get_set, if_neg (by decide)]
  by_cases hstem : rule.stem = []
  · rw [if_neg (fun hh => hh hstem), get_set, if_neg (by decide), get_set, if_pos rfl]
  · rw [if_pos hstem, get_set, if_neg (by decide), get_set, if_neg (by decide),
      get_set, if_pos rfl]

/-- C6: order-only prerequisites never contribute to staleness and never
    reach the automatic variables: the doBuild staleness consultation and
    the expanded recipe are invariant under replacing the order-only
    list, and the auto-variable store binds inputs, changed, and input
    exclusively from the normal prerequisite list. -/
theorem order_only_irrelevant_C6 (env : BuildEnv) (v : Vars) (fuel : Nat) (force : Bool)
    (rule : RRule) (oo1 oo2 : List Str) :
    doBuildRuns env v fuel force { rule with orderOnly := oo1 } =
      doBuildRuns env v fuel force { rule with orderOnly := oo2 } ∧
    expandRecipe env v fuel { rule with orderOnly := oo1 } =
      expandRecipe env v fuel { rule with orderOnly := oo2 } ∧
    (autoVars env v { rule with orderOnly := oo1 }).get (str "inputs") =
      joinSpace rule.prereqs ∧
    (autoVars env v { rule with orderOnly := oo1 }).get (str "changed") =
      joinSpace (changedPrereqs env rule.target rule.prereqs) ∧
    (∀ p ps, rule.prereqs = p :: ps →
      (autoVars env v { rule with orderOnly := oo1 }).get (str "input") = p) :=
  ⟨rfl, rfl, autoVars_get_inputs env v _, autoVars_get_changed env v _,
   fun p ps hp => autoVars_get_input env v _ p ps hp⟩

def envC6 : BuildEnv := ⟨fun _ => none, fun _ => true, id, fun _ => none, fun _ => none⟩

def varsC6 : Vars := ⟨[], [], fun _ => none, fun _ => none⟩

def ruleC6 : RRule :=
  ⟨str "out.txt", [str "out.txt"], [str "src.txt"], [], [str "cp $input $target"],
   false, false, [], []⟩

theorem order_only_irrelevant_C6_witness :
    doBuildRuns envC6 varsC6 30 false { ruleC6 with orderOnly := [str "order.txt"] } =
      doBuildRuns envC6 varsC6 30 false { ruleC6 with orderOnly := [str "other.txt"] } ∧
    (autoVars envC6 varsC6 { ruleC6 with orderOnly := [str "order.txt"] }).get
      (str "input") = str "src.txt" := by
  have h := order_only_irrelevant_C6 envC6 varsC6 30 false ruleC6
    [str "order.txt"] [str "other.txt"]
  exact ⟨h.1, h.2.2.2.2 (str "src.txt") [] rfl⟩

/-! ## C3: the recorded recipe hash -/

/-- Recipe text exactly as claim C3 describes it: each line's leading '@'
    and '-' prefixes stripped, auto-variable substitution applied, lines
    joined with newlines, and no other alteration of the lines. -/
def claimRecipeTextC3 (env : BuildEnv) (v : Vars) (fuel : Nat) (rule : RRule) : Str :=
  joinNl (rule.recipe.map (fun line =>
    expand fuel (autoVars env v rule) (stripAtDash line).1))

/-- Recipe text as the executor actually hashes it: lines whose stripped
    prefixes contained '-' additionally receive the " || true" suffix
    appended by Executor.expandRecipe. -/
def amendedRecipeTextC3 (env : BuildEnv) (v : Vars) (fuel : Nat) (rule : RRule) : Str :=
  joinNl (rule.recipe.map (fun line =>
    expand fuel (autoVars env v rule) (stripAtDash line).1 ++
      (if (stripAtDash line).2 then str " || true" else [])))

def envC3 : BuildEnv := ⟨fun _ => none, fun _ => true, id, fun _ => none, fun _ => none⟩

def varsC3 : Vars := ⟨[], [], fun _ => none, fun _ => none⟩

def ruleC3 : RRule :=
  ⟨str "out", [str "out"], [], [], [str "-rm -f out"], false, false, [], []⟩

/-- C3 counterexample: with the abstract SHA-256 instantiated to an
    injective concrete stand-in (the identity), the recipe hash recorded
    for a successfully executed rule whose recipe line starts with '-'
    is the hash of "rm -f out || true", not of the prefix-stripped text
    "rm -f out" that the claim describes: the executor suffixes
    error-ignoring lines with " || true" before hashing. -/
theorem record_hash_C3_counterexample :
    (recordTargetState envC3 (str "out") ruleC3.prereqs
        (expandRecipe envC3 varsC3 20 ruleC3) (expandFingerprint varsC3 20 ruleC3)).recipeHash ≠
      envC3.hashString (claimRecipeTextC3 envC3 varsC3 20 ruleC3) := by
  decide

/-- C3 (amended): for every successfully executed non-task rule, the
    recipe hash recorded in the build database for each target of the
    group is the SHA-256 of the fully-expanded recipe text after
    auto-variable substitution, where each recipe line has its leading
    '@' and '-' prefixes stripped, every line whose stripped prefixes
    contained '-' is suffixed with " || true", and the lines are joined
    with newline characters. -/
theorem record_hash_C3_amended (env : BuildEnv) (v : Vars) (fuel : Nat) (rule : RRule)
    (t : Str) :
    (recordTargetState env t rule.prereqs (expandRecipe env v fuel rule)
        (expandFingerprint v fuel rule)).recipeHash =
      env.hashString (amendedRecipeTextC3 env v fuel rule) := by
  show env.hashString (expandRecipe env v fuel rule) =
    env.hashString (amendedRecipeTextC3 env v fuel rule)
  unfold expandRecipe amendedRecipeTextC3
  congr 1
  dsimp only
  refine congrArg joinNl (List.map_congr_left fun line _ => ?_)
  by_cases hb : (stripAtDash line).2 <;> simp [hb]

/-! ## C4: dollar-name versus dollar-brace expansion -/

def varsC4 : Vars := ⟨[(str "a:b", str "hello")], [], fun _ => none, fun _ => none⟩

/-- C4 counterexample: the store can bind names that are not plain
    identifiers — computed assignment names and scoped-include exports
    can contain ':' or '.' — and for such a bound name the two forms
    differ: with "a:b" bound to "hello", Expand("$a:b") yields ":b" (the
    scanner reads only the identifier "a", finds no substitution
    reference after the colon, and copies ":b" verbatim), while
    Expand("$\x7ba:b\x7d") yields "hello". -/
theorem expand_dollar_C4_counterexample :
    expand 10 varsC4 (str "$a:b") ≠ expand 10 varsC4 (str "$\x7ba:b\x7d") := by
  decide

/-- A plain identifier: a leading letter or underscore followed by
    letters, digits, or underscores (the names produced by the spec's
    variable grammar). -/
def validIdent (x : Str) : Bool :=
  match x with
  | [] => false
  | c :: rest => isIdentStart c && rest.all isIdentCont

theorem identStart_ne (c : Char) (h : isIdentStart c = true) :
    c ≠ '$' ∧ c ≠ '\x7b' ∧ c ≠ '[' := by
  refine ⟨?_, ?_, ?_⟩ <;> rintro rfl <;> revert h <;> decide

theorem span_of_all (p : Char → Bool) (l : List Char) (h : ∀ a ∈ l, p a = true) :
    l.span p = (l, []) := by
  rw [List.span_eq_take_drop, List.takeWhile_eq_self_iff.mpr h,
    List.dropWhile_eq_nil_iff.mpr h]

theorem splitFirst_append_of_not_mem (c : Char) (x rest : Str)
    (h : ∀ a ∈ x, a ≠ c) :
    splitFirst c (x ++ c :: rest) = some (x, rest) := by
  induction x with
  | nil => simp [splitFirst]
  | cons d ds ih =>
    have hd : d ≠ c := h d (by simp)
    rw [List.cons_append]
    unfold splitFirst
    rw [if_neg hd, ih (fun a ha => h a (by simp [ha]))]

/-- C4 (amended): for every variable x whose name is a plain identifier
    and any store contents, Expand("$x") returns the same string as
    Expand("$\x7bx\x7d"); both produce exactly the store's value of x. -/
theorem expand_dollar_brace_C4_amended (v : Vars) (fuel : Nat) (x : Str)
    (h : validIdent x = true) :
    expand (fuel + 1) v ('$' :: x) =
      expand (fuel + 1) v ('$' :: '\x7b' :: (x ++ ['\x7d'])) ∧
    expand (fuel + 1) v ('$' :: x) = v.get x := by
  cases x with
  | nil => exact absurd h (by decide)
  | cons c rest =>
    unfold validIdent at h
    rw [Bool.and_eq_true] at h
    obtain ⟨hc, hrest⟩ := h
    obtain ⟨hne1, hne2, hne3⟩ := identStart_ne c hc
    have hcont : ∀ a ∈ c :: rest, isIdentCont a = true := by
      intro a ha
      rcases List.mem_cons.mp ha with rfl | ha
      · unfold isIdentCont
        rw [hc, Bool.true_or]
      · exact List.all_eq_true.mp hrest a ha
    have hnb : ∀ a ∈ c :: rest, a ≠ '\x7d' := by
      intro a ha heq
      have := hcont a ha
      rw [heq] at this
      exact absurd this (by decide)
    have hL : expand (fuel + 1) v ('$' :: c :: rest) = v.get (c :: rest) := by
      show (if ('$' : Char) ≠ '$' then '$' :: expand fuel v (c :: rest)
        else if c = '$' then '$' :: expand fuel v rest
        else if c = '\x7b' then
          match splitFirst '\x7d' rest with
          | none => '$' :: '\x7b' :: expand fuel v rest
          | some (name, post) => v.get name ++ expand fuel v post
        else if c = '[' then
          match matchBracket 1 rest with
          | none => '$' :: '[' :: expand fuel v rest
          | some (inner, post) => evalFunc (expand fuel) v inner ++ expand fuel v post
        else if isIdentStart c then expandIdent (expand fuel) v (c :: rest)
        else '$' :: expand fuel v (c :: rest)) = v.get (c :: rest)
      rw [if_neg (by simp), if_neg hne1, if_neg hne2, if_neg hne3, if_pos hc]
      unfold expandIdent
      rw [span_of_all isIdentCont (c :: rest) hcont]
      show v.get (c :: rest) ++ expand fuel v [] = v.get (c :: rest)
      rw [show expand fuel v [] = [] from by unfold expand; cases fuel <;> rfl]
      exact List.append_nil _
    have hR : expand (fuel + 1) v ('$' :: '\x7b' :: ((c :: rest) ++ ['\x7d'])) =
        v.get (c :: rest) := by
      show (if ('$' : Char) ≠ '$' then
          '$' :: expand fuel v ('\x7b' :: ((c :: rest) ++ ['\x7d']))
        else if ('\x7b' : Char) = '$' then '$' :: expand fuel v ((c :: rest) ++ ['\x7d'])
        else if ('\x7b' : Char) = '\x7b' then
          match splitFirst '\x7d' ((c :: rest) ++ ['\x7d']) with
          | none => '$' :: '\x7b' :: expand fuel v ((c :: rest) ++ ['\x7d'])
          | some (name, post) => v.get name ++ expand fuel v post
        else if ('\x7b' : Char) = '[' then
          match matchBracket 1 ((c :: rest) ++ ['\x7d']) with
          | none => '$' :: '[' :: expand fuel v ((c :: rest) ++ ['\x7d'])
          | some (inner, post) => evalFunc (expand fuel) v inner ++ expand fuel v post
        else if isIdentStart '\x7b' then
          expandIdent (expand fuel) v ('\x7b' :: ((c :: rest) ++ ['\x7d']))
        else '$' :: expand fuel v ('\x7b' :: ((c :: rest) ++ ['\x7d']))) =
        v.get (c :: rest)
      rw [if_neg (by simp), if_neg (by decide), if_pos rfl,
        splitFirst_append_of_not_mem '\x7d' (c :: rest) [] hnb]
      show v.get (c :: rest) ++ expand fuel v [] = v.get (c :: rest)
      rw [show expand fuel v [] = [] from by unfold expand; cases fuel <;> rfl]
      exact List.append_nil _
    exact ⟨hL.trans hR.symm, hL⟩

theorem expand_dollar_brace_C4_witness :
    expand 8 varsC4 (str "$abc") = expand 8 varsC4 (str "$\x7babc\x7d") := by
  have h := expand_dollar_brace_C4_amended varsC4 7 (str "abc") (by decide)
  exact h.1

/-! ## C10: unknown function names expand to the empty string -/

/-- The built-in function names dispatched by Vars.evalFunc (vars.go). -/
def builtinNames : List Str :=
  [str "wildcard", str "shell", str "patsubst", str "subst", str "filter",
   str "filter-out", str "dir", str "notdir", str "basename", str "suffix",
   str "addprefix", str "addsuffix", str "sort", str "word", str "words",
   str "strip", str "findstring", str "if"]

theorem matchBracket_of_free (inner rest : Str)
    (h : ∀ a ∈ inner, a ≠ '[' ∧ a ≠ ']') :
    matchBracket 1 (inner ++ ']' :: rest) = some (inner, rest) := by
  induction inner with
  | nil => simp [matchBracket]
  | cons d ds ih =>
    obtain ⟨h1, h2⟩ := h d (by simp)
    rw [List.cons_append]
    unfold matchBracket
    rw [if_neg h1, if_neg h2, ih (fun a ha => h a (by simp [ha]))]

theorem evalFunc_unknown (exv : Vars → Str → Str) (v : Vars) (name args : Str)
    (hnb : name ∉ builtinNames)
    (hnu : v.funcs.lookup name = none)
    (hsp : ∀ a ∈ name, a ≠ ' ') :
    evalFunc exv v (name ++ ' ' :: args) = [] := by
  simp only [builtinNames, List.mem_cons, not_or] at hnb
  obtain ⟨h1, h2, h3, h4, h5, h6, h7, h8, h9, h10, h11, h12, h13, h14, h15, h16,
    h17, h18, -⟩ := hnb
  unfold evalFunc
  rw [show cutChar ' ' (name ++ ' ' :: args) = (name, args, true) from by
    unfold cutChar
    rw [splitFirst_append_of_not_mem ' ' name args hsp]]
  dsimp only
  rw [if_neg h1, if_neg h2, if_neg h3, if_neg h4, if_neg h5, if_neg h6, if_neg h7,
    if_neg h8, if_neg h9, if_neg h10, if_neg h11, if_neg h12, if_neg h13,
    if_neg h14, if_neg h15, if_neg h16, if_neg h17, if_neg h18, hnu]

/-- C10: for an input text beginning with a function form whose name is
    neither a built-in nor a registered user function, Expand replaces
    the entire bracketed form with the empty string — no error is
    produced — and the rest of the text is expanded normally (the name
    and arguments are bracket-free, so the scanner's bracket matcher ends
    at the form's own closing bracket). -/
theorem unknown_function_empty_C10 (v : Vars) (fuel : Nat) (name args rest : Str)
    (hnb : name ∉ builtinNames)
    (hnu : v.funcs.lookup name = none)
    (hname : ∀ a ∈ name, a ≠ '[' ∧ a ≠ ']' ∧ a ≠ ' ')
    (hargs : ∀ a ∈ args, a ≠ '[' ∧ a ≠ ']') :
    expand (fuel + 1) v ('$' :: '[' :: ((name ++ ' ' :: args) ++ ']' :: rest)) =
      expand fuel v rest := by
  have hfree : ∀ a ∈ name ++ ' ' :: args, a ≠ '[' ∧ a ≠ ']' := by
    intro a ha
    rcases List.mem_append.mp ha with ha | ha
    · exact ⟨(hname a ha).1, (hname a ha).2.1⟩
    · rcases List.mem_cons.mp ha with rfl | ha
      · exact ⟨by decide, by decide⟩
      · exact hargs a ha
  show (if ('$' : Char) ≠ '$' then
      '$' :: expand fuel v ('[' :: ((name ++ ' ' :: args) ++ ']' :: rest))
    else if ('[' : Char) = '$' then
      '$' :: expand fuel v ((name ++ ' ' :: args) ++ ']' :: rest)
    else if ('[' : Char) = '\x7b' then
      match splitFirst '\x7d' ((name ++ ' ' :: args) ++ ']' :: rest) with
      | none => '$' :: '\x7b' :: expand fuel v ((name ++ ' ' :: args) ++ ']' :: rest)
      | some (nm, post) => v.get nm ++ expand fuel v post
    else if ('[' : Char) = '[' then
      match matchBracket 1 ((name ++ ' ' :: args) ++ ']' :: rest) with
      | none => '$' :: '[' :: expand fuel v ((name ++ ' ' :: args) ++ ']' :: rest)
      | some (inner, post) => evalFunc (expand fuel) v inner ++ expand fuel v post
    else if isIdentStart '[' then
      expandIdent (expand fuel) v ('[' :: ((name ++ ' ' :: args) ++ ']' :: rest))
    else '$' :: expand fuel v ('[' :: ((name ++ ' ' :: args) ++ ']' :: rest))) =
    expand fuel v rest
  rw [if_neg (by simp), if_neg (by decide), if_neg (by decide), if_pos rfl,
    matchBracket_of_free (name ++ ' ' :: args) rest hfree]
  dsimp only
  rw [evalFunc_unknown (expand fuel) v name args hnb hnu (fun a ha => (hname a ha).2.2)]
  exact List.nil_append _

def varsC10 : Vars := ⟨[(str "x", str "1")], [], fun _ => none, fun _ => none⟩

theorem unknown_function_empty_C10_witness :
    expand 11 varsC10 (str "$[mystery a b]-$x") = str "-1" := by
  have h := unknown_function_empty_C10 varsC10 10 (str "mystery") (str "a b")
    (str "-$x") (by decide) rfl (by decide) (by decide)
  have he : str "$[mystery a b]-$x" =
      '$' :: '[' :: ((str "mystery" ++ ' ' :: str "a b") ++ ']' :: str "-$x") := by decide
  rw [he, h]
  decide

/-! ## C7: soundness of pattern matching -/

theorem dropPre_eq (p : Str) : ∀ (s t : Str), dropPre p s = some t → s = p ++ t := by
  induction p with
  | nil =>
    intro s t h
    simp [dropPre] at h
    rw [h, List.nil_append]
  | cons c cs ih =>
    intro s t h
    cases s with
    | nil => exact absurd h (by simp [dropPre])
    | cons d ds =>
      unfold dropPre at h
      by_cases hcd : c = d
      · rw [if_pos hcd] at h
        rw [List.cons_append, ← hcd, ih ds t h]
      · rw [if_neg hcd] at h
        exact absurd h (by simp)

theorem bindCap_lookup (m : CapMap) (n v : Str) (m' : CapMap)
    (h : bindCap m n v = some m') : m'.lookup n = some v := by
  unfold bindCap at h
  cases h0 : m.lookup n with
  | some v0 =>
    rw [h0] at h
    dsimp only at h
    by_cases he : v0 = v
    · rw [if_pos he] at h
      injection h with h
      rw [← h, h0, he]
    · rw [if_neg he] at h
      exact absurd h (by simp)
  | none =>
    rw [h0] at h
    dsimp only at h
    injection h with h
    rw [← h, lookup_cons, if_pos rfl]

theorem bindCap_mono (m : CapMap) (n v : Str) (m' : CapMap)
    (h : bindCap m n v = some m') :
    ∀ k w, m.lookup k = some w → m'.lookup k = some w := by
  intro k w hk
  unfold bindCap at h
  cases h0 : m.lookup n with
  | some v0 =>
    rw [h0] at h
    dsimp only at h
    by_cases he : v0 = v
    · rw [if_pos he] at h
      injection h with h
      rw [← h]; exact hk
    · rw [if_neg he] at h
      exact absurd h (by simp)
  | none =>
    rw [h0] at h
    dsimp only at h
    injection h with h
    rw [← h, lookup_cons]
    have hkn : k ≠ n := fun he => by rw [he, h0] at hk; exact absurd hk (by simp)
    rw [if_neg hkn]
    exact hk

theorem bindCap_new (m : CapMap) (n v : Str) (m' : CapMap)
    (h : bindCap m n v = some m') :
    ∀ k w, m'.lookup k = some w → m.lookup k = some w ∨ w = v := by
  intro k w hk
  unfold bindCap at h
  cases h0 : m.lookup n with
  | some v0 =>
    rw [h0] at h
    dsimp only at h
    by_cases he : v0 = v
    · rw [if_pos he] at h
      injection h with h
      rw [h]; exact Or.inl hk
    · rw [if_neg he] at h
      exact absurd h (by simp)
  | none =>
    rw [h0] at h
    dsimp only at h
    injection h with h
    rw [← h, lookup_cons] at hk
    by_cases hkn : k = n
    · rw [if_pos hkn] at hk
      injection hk with hk
      exact Or.inr hk.symm
    · rw [if_neg hkn] at hk
      exact Or.inl hk

theorem pmatch_mono : ∀ (fuel : Nat) (parts : List Str) (caps : List PatCapture)
    (m : CapMap) (s : Str) (m' : CapMap),
    pmatch fuel parts caps m s = some m' →
    ∀ k w, m.lookup k = some w → m'.lookup k = some w := by
  intro fuel
  induction fuel with
  | zero =>
    intro parts caps m s m' h
    exact absurd h (by simp [pmatch])
  | succ n ih =>
    intro parts caps m s m' h k w hk
    cases parts with
    | nil => exact absurd h (by simp [pmatch])
    | cons p ps =>
      unfold pmatch at h
      cases hdp : dropPre p s with
      | none => rw [hdp] at h; exact absurd h (by simp)
      | some t =>
        rw [hdp] at h
        dsimp only at h
        cases caps with
        | nil =>
          by_cases ht : t = []
          · rw [if_pos ht] at h
            injection h with h
            rw [← h]; exact hk
          · rw [if_neg ht] at h
            exact absurd h (by simp)
        | cons c cs =>
          cases ps with
          | nil => exact absurd h (by simp)
          | cons q qs =>
            dsimp only at h
            by_cases hsp : (qs.isEmpty && q.isEmpty && cs.isEmpty) = true
            · rw [if_pos hsp] at h
              cases hct : t.contains '/' with
              | true => rw [hct] at h; exact absurd h (by simp)
              | false =>
                rw [hct] at h
                simp only [Bool.false_eq_true, if_false] at h
                cases hco : conOK c t with
                | false => rw [hco] at h; exact absurd h (by simp)
                | true =>
                  rw [hco] at h
                  simp only [Bool.not_true, Bool.false_eq_true, if_false] at h
                  exact bindCap_mono m c.name t m' h k w hk
            · rw [if_neg hsp] at h
              obtain ⟨i, hi, hfi⟩ := List.exists_of_findSome?_eq_some h
              cases hct : (t.take i).contains '/' with
              | true => rw [hct] at hfi; exact absurd hfi (by simp)
              | false =>
                rw [hct] at hfi
                simp only [Bool.false_eq_true, if_false] at hfi
                cases hco : conOK c (t.take i) with
                | false => rw [hco] at hfi; exact absurd hfi (by simp)
                | true =>
                  rw [hco] at hfi
                  simp only [Bool.not_true, Bool.false_eq_true, if_false] at hfi
                  cases hbc : bindCap m c.name (t.take i) with
                  | none => rw [hbc] at hfi; exact absurd hfi (by simp)
                  | some m2 =>
                    rw [hbc] at hfi
                    exact ih (q :: qs) cs m2 (t.drop i) m' hfi k w
                      (bindCap_mono m c.name (t.take i) m2 hbc k w hk)

theorem pmatch_slash : ∀ (fuel : Nat) (parts : List Str) (caps : List PatCapture)
    (m : CapMap) (s : Str) (m' : CapMap),
    pmatch fuel parts caps m s = some m' →
    ∀ k w, m'.lookup k = some w →
      m.lookup k = some w ∨ w.contains '/' = false := by
  intro fuel
  induction fuel with
  | zero =>
    intro parts caps m s m' h
    exact absurd h (by simp [pmatch])
  | succ n ih =>
    intro parts caps m s m' h k w hk
    cases parts with
    | nil => exact absurd h (by simp [pmatch])
    | cons p ps =>
      unfold pmatch at h
      cases hdp : dropPre p s with
      | none => rw [hdp] at h; exact absurd h (by simp)
      | some t =>
        rw [hdp] at h
        dsimp only at h
        cases caps with
        | nil =>
          by_cases ht : t = []
          · rw [if_pos ht] at h
            injection h with h
            rw [h]; exact Or.inl hk
          · rw [if_neg ht] at h
            exact absurd h (by simp)
        | cons c cs =>
          cases ps with
          | nil => exact absurd h (by simp)
          | cons q qs =>
            dsimp only at h
            by_cases hsp : (qs.isEmpty && q.isEmpty && cs.isEmpty) = true
            · rw [if_pos hsp] at h
              cases hct : t.contains '/' with
              | true => rw [hct] at h; exact absurd h (by simp)
              | false =>
                rw [hct] at h
                simp only [Bool.false_eq_true, if_false] at h
                cases hco : conOK c t with
                | false => rw [hco] at h; exact absurd h (by simp)
                | true =>
                  rw [hco] at h
                  simp only [Bool.not_true, Bool.false_eq_true, if_false] at h
                  rcases bindCap_new m c.name t m' h k w hk with h0 | h0
                  · exact Or.inl h0
                  · rw [h0]; exact Or.inr hct
            · rw [if_neg hsp] at h
              obtain ⟨i, hi, hfi⟩ := List.exists_of_findSome?_eq_some h
              cases hct : (t.take i).contains '/' with
              | true => rw [hct] at hfi; exact absurd hfi (by simp)
              | false =>
                rw [hct] at hfi
                simp only [Bool.false_eq_true, if_false] at hfi
                cases hco : conOK c (t.take i) with
                | false => rw [hco] at hfi; exact absurd hfi (by simp)
                | true =>
                  rw [hco] at hfi
                  simp only [Bool.not_true, Bool.false_eq_true, if_false] at hfi
                  cases hbc : bindCap m c.name (t.take i) with
                  | none => rw [hbc] at hfi; exact absurd hfi (by simp)
                  | some m2 =>
                    rw [hbc] at hfi
                    rcases ih (q :: qs) cs m2 (t.drop i) m' hfi k w hk with h0 | h0
                    · rcases bindCap_new m c.name (t.take i) m2 hbc k w h0 with h1 | h1
                      · exact Or.inl h1
                      · rw [h1]; exact Or.inr hct
                    · exact Or.inr h0

theorem pmatch_expand : ∀ (fuel : Nat) (parts : List Str) (caps : List PatCapture)
    (m : CapMap) (s : Str) (m' : CapMap),
    parts.length = caps.length + 1 →
    pmatch fuel parts caps m s = some m' →
    pexpand parts caps m' = s := by
  intro fuel
  induction fuel with
  | zero =>
    intro parts caps m s m' _ h
    exact absurd h (by simp [pmatch])
  | succ n ih =>
    intro parts caps m s m' hwf h
    cases parts with
    | nil => exact absurd h (by simp [pmatch])
    | cons p ps =>
      unfold pmatch at h
      cases hdp : dropPre p s with
      | none => rw [hdp] at h; exact absurd h (by simp)
      | some t =>
        have hs : s = p ++ t := dropPre_eq p s t hdp
        rw [hdp] at h
        dsimp only at h
        cases caps with
        | nil =>
          have hps : ps = [] := by
            have h0 : ps.length = 0 := by simpa using hwf
            exact List.length_eq_zero.mp h0
          by_cases ht : t = []
          · rw [if_pos ht] at h
            subst hps
            rw [hs, ht]
            simp [pexpand]
          · rw [if_neg ht] at h
            exact absurd h (by simp)
        | cons c cs =>
          cases ps with
          | nil => exact absurd h (by simp)
          | cons q qs =>
            have hwf2 : (q :: qs).length = cs.length + 1 := by simpa using hwf
            dsimp only at h
            by_cases hsp : (qs.isEmpty && q.isEmpty && cs.isEmpty) = true
            · rw [if_pos hsp] at h
              simp only [Bool.and_eq_true, List.isEmpty_iff] at hsp
              obtain ⟨⟨hqs, hq⟩, hcs⟩ := hsp
              subst hqs; subst hq; subst hcs
              cases hct : t.contains '/' with
              | true => rw [hct] at h; exact absurd h (by simp)
              | false =>
                rw [hct] at h
                simp only [Bool.false_eq_true, if_false] at h
                cases hco : conOK c t with
                | false => rw [hco] at h; exact absurd h (by simp)
                | true =>
                  rw [hco] at h
                  simp only [Bool.not_true, Bool.false_eq_true, if_false] at h
                  have hlk := bindCap_lookup m c.name t m' h
                  simp only [pexpand, lookupD, hlk, Option.getD_some]
                  rw [hs]
                  simp
            · rw [if_neg hsp] at h
              obtain ⟨i, hi, hfi⟩ := List.exists_of_findSome?_eq_some h
              cases hct : (t.take i).contains '/' with
              | true => rw [hct] at hfi; exact absurd hfi (by simp)
              | false =>
                rw [hct] at hfi
                simp only [Bool.false_eq_true, if_false] at hfi
                cases hco : conOK c (t.take i) with
                | false => rw [hco] at hfi; exact absurd hfi (by simp)
                | true =>
                  rw [hco] at hfi
                  simp only [Bool.not_true, Bool.false_eq_true, if_false] at hfi
                  cases hbc : bindCap m c.name (t.take i) with
                  | none => rw [hbc] at hfi; exact absurd hfi (by simp)
                  | some m2 =>
                    rw [hbc] at hfi
                    have hrest := ih (q :: qs) cs m2 (t.drop i) m' hwf2 hfi
                    have hlk2 := bindCap_lookup m c.name (t.take i) m2 hbc
                    have hlk' := pmatch_mono n (q :: qs) cs m2 (t.drop i) m' hfi
                      c.name (t.take i) hlk2
                    simp only [pexpand, lookupD, hlk', Option.getD_some, hrest]
                    rw [hs, List.append_assoc, List.take_append_drop]
/-- C7: if Pattern.Match succeeds on s with capture map c, then no
    capture value in c contains '/', and expanding the pattern with c
    reconstructs exactly s.  Since Expand substitutes the single value
    c assigns to a name at every occurrence of that name, the
    reconstruction equation also expresses that repeated capture names
    are bound to one common value across all their occurrences. -/
theorem pattern_match_sound_C7 (p : Pattern) (s : Str) (m : CapMap)
    (hwf : p.parts.length = p.caps.length + 1)
    (hm : p.Match s = some m) :
    (∀ k w, m.lookup k = some w → w.contains '/' = false) ∧
    p.Expand m = s := by
  unfold Pattern.Match at hm
  by_cases hc : p.caps.isEmpty
  · rw [if_pos hc] at hm
    by_cases hs : s = p.raw
    · rw [if_pos hs] at hm
      injection hm with hm
      constructor
      · intro k w hk
        rw [← hm] at hk
        exact absurd hk (by simp [List.lookup])
      · unfold Pattern.Expand
        rw [if_pos hc, hs]
    · rw [if_neg hs] at hm
      exact absurd hm (by simp)
  · rw [if_neg hc] at hm
    constructor
    · intro k w hk
      rcases pmatch_slash (p.parts.length + 1) p.parts p.caps [] s m hm k w hk with h0 | h0
      · exact absurd h0 (by simp [List.lookup])
      · exact h0
    · unfold Pattern.Expand
      rw [if_neg hc]
      exact pmatch_expand (p.parts.length + 1) p.parts p.caps [] s m hwf hm

def patC7 : Pattern :=
  ⟨[str "build/", str ".o"], [⟨str "name", none⟩], str "build/NAME.o"⟩

theorem pattern_match_sound_C7_witness :
    (∀ k w, ([(str "name", str "main")] : CapMap).lookup k = some w →
      w.contains '/' = false) ∧
    patC7.Expand [(str "name", str "main")] = str "build/main.o" :=
  pattern_match_sound_C7 patC7 (str "build/main.o") [(str "name", str "main")]
    (by decide) (by decide)

/-! ## C5: pattern-rule merging and the ambiguity error -/

/-- The pattern rules of a list that match the target, each with its
    matched target pattern and capture map, in declaration order. -/
def matchersOf (target : Str) (prs : List PatternRule) :
    List (PatternRule × Pattern × CapMap) :=
  prs.filterMap (fun pr => (firstTpMatch pr target).map (fun tm => (pr, tm.1, tm.2)))

/-- The prerequisites contributed by a list of matchers, in order. -/
def matchersPrereqs (ms : List (PatternRule × Pattern × CapMap)) : List Str :=
  (ms.map (fun pm => pm.1.prereqPats.map (fun pp => pp.Expand pm.2.2))).flatten

/-- How many matching rules carry a recipe. -/
def recipeCount (ms : List (PatternRule × Pattern × CapMap)) : Nat :=
  (ms.filter (fun pm => !pm.1.recipe.isEmpty)).length

theorem matchersOf_cons_none (target : Str) (pr : PatternRule) (rest : List PatternRule)
    (h : firstTpMatch pr target = none) :
    matchersOf target (pr :: rest) = matchersOf target rest := by
  unfold matchersOf
  rw [List.filterMap_cons, h]
  rfl

theorem matchersOf_cons_some (target : Str) (pr : PatternRule) (rest : List PatternRule)
    (tp : Pattern) (m : CapMap) (h : firstTpMatch pr target = some (tp, m)) :
    matchersOf target (pr :: rest) = (pr, tp, m) :: matchersOf target rest := by
  unfold matchersOf
  rw [List.filterMap_cons, h]
  rfl

theorem not_isEmpty_of_ne {α : Type} (l : List α) (h : l ≠ []) : (!l.isEmpty) = true := by
  cases l with
  | nil => exact absurd rfl h
  | cons a as => rfl

theorem not_not_isEmpty_of_eq {α : Type} (l : List α) (h : l = []) :
    ¬ ((!l.isEmpty) = true) := by
  subst h
  simp

theorem recipeCount_cons_pos (pr : PatternRule) (tp : Pattern) (m : CapMap)
    (ms : List (PatternRule × Pattern × CapMap)) (h : pr.recipe ≠ []) :
    recipeCount ((pr, tp, m) :: ms) = 1 + recipeCount ms := by
  unfold recipeCount
  rw [List.filter_cons, if_pos (not_isEmpty_of_ne pr.recipe h)]
  simp [Nat.add_comm]

theorem recipeCount_cons_neg (pr : PatternRule) (tp : Pattern) (m : CapMap)
    (ms : List (PatternRule × Pattern × CapMap)) (h : pr.recipe = []) :
    recipeCount ((pr, tp, m) :: ms) = recipeCount ms := by
  unfold recipeCount
  rw [List.filter_cons, if_neg (not_not_isEmpty_of_eq pr.recipe h)]

theorem resolveLoop_error (target : Str) :
    ∀ (prs : List PatternRule) (merged : Option RRule) (rc : Nat), rc ≤ 1 →
    2 ≤ rc + recipeCount (matchersOf target prs) →
    ∃ e, resolveLoop target prs merged rc = .error e := by
  intro prs
  induction prs with
  | nil =>
    intro merged rc hrc hcount
    rw [show matchersOf target [] = [] from rfl,
      show recipeCount [] = 0 from rfl] at hcount
    omega
  | cons pr rest ih =>
    intro merged rc hrc hcount
    cases hfm : firstTpMatch pr target with
    | none =>
      rw [matchersOf_cons_none target pr rest hfm] at hcount
      unfold resolveLoop
      rw [hfm]
      exact ih merged rc hrc hcount
    | some tm =>
      obtain ⟨tp, m⟩ := tm
      rw [matchersOf_cons_some target pr rest tp m hfm] at hcount
      unfold resolveLoop
      rw [hfm]
      dsimp only
      by_cases hrec : pr.recipe ≠ []
      · rw [recipeCount_cons_pos pr tp m _ hrec] at hcount
        rw [if_pos hrec]
        rcases Nat.lt_or_ge rc 1 with h1 | h1
        · have hrc0 : rc = 0 := by omega
          subst hrc0
          rw [if_neg (by omega)]
          exact ih _ 1 (by omega) (by omega)
        · have hrc1 : rc = 1 := by omega
          subst hrc1
          rw [if_pos (by omega)]
          exact ⟨_, rfl⟩
      · rw [not_ne_iff] at hrec
        rw [recipeCount_cons_neg pr tp m _ hrec] at hcount
        rw [if_neg (fun hh => hh hrec)]
        exact ih _ rc hrc hcount

theorem matchersPrereqs_cons (pr : PatternRule) (tp : Pattern) (m : CapMap)
    (ms : List (PatternRule × Pattern × CapMap)) :
    matchersPrereqs ((pr, tp, m) :: ms) =
      pr.prereqPats.map (fun pp => pp.Expand m) ++ matchersPrereqs ms := rfl

theorem resolveLoop_ok_some (target : Str) :
    ∀ (prs : List PatternRule) (mg : RRule) (rc : Nat),
    rc + recipeCount (matchersOf target prs) ≤ 1 →
    ∃ r, resolveLoop target prs (some mg) rc = .ok (some r) ∧
      r.prereqs = mg.prereqs ++ matchersPrereqs (matchersOf target prs) := by
  intro prs
  induction prs with
  | nil =>
    intro mg rc _
    exact ⟨mg, rfl, by simp [matchersOf, matchersPrereqs]⟩
  | cons pr rest ih =>
    intro mg rc hcount
    cases hfm : firstTpMatch pr target with
    | none =>
      rw [matchersOf_cons_none target pr rest hfm] at hcount ⊢
      unfold resolveLoop
      rw [hfm]
      exact ih mg rc hcount
    | some tm =>
      obtain ⟨tp, m⟩ := tm
      rw [matchersOf_cons_some target pr rest tp m hfm] at hcount ⊢
      unfold resolveLoop
      rw [hfm]
      dsimp only
      by_cases hrec : pr.recipe ≠ []
      · rw [recipeCount_cons_pos pr tp m _ hrec] at hcount
        rw [if_pos hrec]
        have hrc0 : rc = 0 := by omega
        subst hrc0
        rw [if_neg (by omega)]
        obtain ⟨r, hr, hpre⟩ := ih (attachRecipe pr tp m
          { mg with
            prereqs := mg.prereqs ++ pr.prereqPats.map (fun pp => pp.Expand m),
            orderOnly := mg.orderOnly ++ pr.orderOnlyPats.map (fun pp => pp.Expand m) })
          1 (by omega)
        refine ⟨r, hr, ?_⟩
        rw [hpre, matchersPrereqs_cons]
        show mg.prereqs ++ List.map (fun pp => pp.Expand m) pr.prereqPats ++ _ = _
        rw [List.append_assoc]
      · rw [not_ne_iff] at hrec
        rw [recipeCount_cons_neg pr tp m _ hrec] at hcount
        rw [if_neg (fun hh => hh hrec)]
        obtain ⟨r, hr, hpre⟩ := ih
          { mg with
            prereqs := mg.prereqs ++ pr.prereqPats.map (fun pp => pp.Expand m),
            orderOnly := mg.orderOnly ++ pr.orderOnlyPats.map (fun pp => pp.Expand m) }
          rc hcount
        refine ⟨r, hr, ?_⟩
        rw [hpre, matchersPrereqs_cons]
        show mg.prereqs ++ List.map (fun pp => pp.Expand m) pr.prereqPats ++ _ = _
        rw [List.append_assoc]

theorem resolveLoop_ok_none (target : Str) :
    ∀ (prs : List PatternRule) (rc : Nat),
    rc + recipeCount (matchersOf target prs) ≤ 1 →
    matchersOf target prs ≠ [] →
    ∃ r, resolveLoop target prs none rc = .ok (some r) ∧
      r.prereqs = matchersPrereqs (matchersOf target prs) := by
  intro prs
  induction prs with
  | nil =>
    intro rc _ hne
    exact absurd rfl hne
  | cons pr rest ih =>
    intro rc hcount hne
    cases hfm : firstTpMatch pr target with
    | none =>
      rw [matchersOf_cons_none target pr rest hfm] at hcount hne ⊢
      unfold resolveLoop
      rw [hfm]
      exact ih rc hcount hne
    | some tm =>
      obtain ⟨tp, m⟩ := tm
      rw [matchersOf_cons_some target pr rest tp m hfm] at hcount ⊢
      unfold resolveLoop
      rw [hfm]
      dsimp only
      by_cases hrec : pr.recipe ≠ []
      · rw [recipeCount_cons_pos pr tp m _ hrec] at hcount
        rw [if_pos hrec]
        have hrc0 : rc = 0 := by omega
        subst hrc0
        rw [if_neg (by omega)]
        obtain ⟨r, hr, hpre⟩ := resolveLoop_ok_some target rest
          (attachRecipe pr tp m
            { target := (pr.targetPats.map (fun tp2 => tp2.Expand m)).headD [],
              targets := pr.targetPats.map (fun tp2 => tp2.Expand m),
              prereqs := pr.prereqPats.map (fun pp => pp.Expand m),
              orderOnly := pr.orderOnlyPats.map (fun pp => pp.Expand m),
              recipe := [], isTask := false, keep := false, fingerprint := [],
              stem := [] })
          1 (by omega)
        refine ⟨r, hr, ?_⟩
        rw [hpre, matchersPrereqs_cons]
        try rfl
      · rw [not_ne_iff] at hrec
        rw [recipeCount_cons_neg pr tp m _ hrec] at hcount
        rw [if_neg (fun hh => hh hrec)]
        obtain ⟨r, hr, hpre⟩ := resolveLoop_ok_some target rest
          { target := (pr.targetPats.map (fun tp2 => tp2.Expand m)).headD [],
            targets := pr.targetPats.map (fun tp2 => tp2.Expand m),
            prereqs := pr.prereqPats.map (fun pp => pp.Expand m),
            orderOnly := pr.orderOnlyPats.map (fun pp => pp.Expand m),
            recipe := [], isTask := false, keep := false, fingerprint := [],
            stem := [] }
          rc hcount
        refine ⟨r, hr, ?_⟩
        rw [hpre, matchersPrereqs_cons]
        try rfl

/-- C5: when no explicit rule lists the requested target, (a) if two or
    more of the matching pattern rules carry a recipe, Resolve returns
    an ambiguity error instead of a rule, and (b) if at most one
    matching rule carries a recipe and at least one pattern rule
    matches, Resolve returns one merged rule whose prerequisite list is
    the concatenation, in declaration order, of the matching rules'
    capture-expanded prerequisites. -/
theorem resolve_merge_ambiguity_C5 (env : BuildEnv) (g : Graph) (target : Str)
    (hexp : ∀ r ∈ g.rules, target ∉ r.targets) :
    (2 ≤ recipeCount (matchersOf target g.patterns) →
      ∃ e, g.Resolve env target = .error e) ∧
    (recipeCount (matchersOf target g.patterns) ≤ 1 →
      matchersOf target g.patterns ≠ [] →
      ∃ r, g.Resolve env target = .ok r ∧
        r.prereqs = matchersPrereqs (matchersOf target g.patterns)) := by
  have hfind : g.rules.find? (fun r => r.targets.contains target) = none := by
    rw [List.find?_eq_none]
    intro r hr hcon
    exact hexp r hr ((contains_eq_mem _ _).mp hcon)
  constructor
  · intro hcount
    obtain ⟨e, he⟩ := resolveLoop_error target g.patterns none 0 (by omega) (by omega)
    refine ⟨e, ?_⟩
    unfold Graph.Resolve
    rw [hfind, he]
  · intro hcount hne
    obtain ⟨r, hr, hpre⟩ := resolveLoop_ok_none target g.patterns 0 (by omega) hne
    refine ⟨r, ?_, hpre⟩
    unfold Graph.Resolve
    rw [hfind, hr]

def patC5o : Pattern := ⟨[[], str ".o"], [⟨str "n", none⟩], str "N.o"⟩

def prC5a : PatternRule :=
  ⟨[patC5o], [⟨[[], str ".c"], [⟨str "n", none⟩], str "N.c"⟩], [],
   [str "cc -c $input"], false, []⟩

def prC5b : PatternRule :=
  ⟨[patC5o], [⟨[[], str ".h"], [⟨str "n", none⟩], str "N.h"⟩], [], [], false, []⟩

def gC5 : Graph := ⟨[], [prC5a, prC5b]⟩

def gC5amb : Graph := ⟨[], [prC5a, { prC5b with recipe := [str "other"] }]⟩

def envC5 : BuildEnv := ⟨fun _ => none, fun _ => false, id, fun _ => none, fun _ => none⟩

theorem resolve_merge_ambiguity_C5_witness :
    (∃ r, gC5.Resolve envC5 (str "foo.o") = .ok r ∧
      r.prereqs = matchersPrereqs (matchersOf (str "foo.o") gC5.patterns)) ∧
    (∃ e, gC5amb.Resolve envC5 (str "foo.o") = .error e) := by
  constructor
  · refine (resolve_merge_ambiguity_C5 envC5 gC5 (str "foo.o") (by simp [gC5])).2
      (by decide) ?_
    intro h
    have h2 : (matchersOf (str "foo.o") gC5.patterns).length = 2 := rfl
    rw [h] at h2
    exact absurd h2 (by decide)
  · exact (resolve_merge_ambiguity_C5 envC5 gC5amb (str "foo.o") (by simp [gC5amb])).1
      (by decide)

end Mk
